import Mathlib

/-!
# Verification of the ontology-tabulator core (docs/app/core.js)

Shallow embedding of the metadata-extraction and table-projection pipeline:
RDF terms, quads and the N3 store are modelled as inductive data / lists
(the store's enumeration order is the list order); each exported function of
`core.js` is translated into a Lean function of the same name.  JavaScript
`Array.prototype.sort` (spec-guaranteed stable) is modelled by the stable
`List.insertionSort`; `String.prototype.localeCompare` is modelled as
code-point lexicographic comparison.  The `graph` component of a quad is
omitted: core.js always queries it as a wildcard (`null`).
-/

/-- RDF term as produced by the N3 parser: `termType` is one of
`NamedNode`, `BlankNode`, `Literal`.  A literal carries its string value and
its language tag (the empty string when there is none, as in N3.js);
the datatype IRI is omitted because core.js never consults it. -/
inductive Term where
  | namedNode (iri : String)
  | blankNode (id : String)
  | literal (value : String) (language : String)
deriving DecidableEq

/-- `.value` of an N3 term. -/
def Term.value : Term → String
  | .namedNode i => i
  | .blankNode b => b
  | .literal v _ => v

/-- `isBlankNode(term)`: `term.termType === 'BlankNode'`. -/
def isBlankNode : Term → Bool
  | .blankNode _ => true
  | _ => false

/-- An RDF quad (graph component omitted, see header). -/
structure Quad where
  subject : Term
  predicate : Term
  object : Term
deriving DecidableEq

/-- An N3 `Store`, as enumerated: the list order is the store's
enumeration order. -/
abbrev Store := List Quad

/-- One component of a `getQuads` pattern: `none` is the wildcard `null`. -/
def termMatches : Option Term → Term → Bool
  | none, _ => true
  | some t, u => t == u

/-- `store.getQuads(s, p, o, null)`: all quads matching the pattern, in
enumeration order. -/
def getQuads (store : Store) (s p o : Option Term) : List Quad :=
  store.filter fun q =>
    termMatches s q.subject && termMatches p q.predicate && termMatches o q.object

/-- Namespace constants `NS` from core.js. -/
def NS.rdf : String := "http://www.w3.org/1999/02/22-rdf-syntax-ns#"

def NS.rdfs : String := "http://www.w3.org/2000/01/rdf-schema#"

def NS.owl : String := "http://www.w3.org/2002/07/owl#"

def NS.dc : String := "http://purl.org/dc/elements/1.1/"

def NS.dcterms : String := "http://purl.org/dc/terms/"

def NS.skos : String := "http://www.w3.org/2004/02/skos/core#"

/-- `COMMON_PREFIXES`: namespace IRI → short label, in the object's
insertion order (`Object.entries` enumerates string keys in that order). -/
def COMMON_PREFIXES : List (String × String) :=
  [(NS.rdf, "rdf"), (NS.rdfs, "rdfs"), (NS.owl, "owl"),
   (NS.dc, "dc"), (NS.dcterms, "dcterms"), (NS.skos, "skos")]

/-- `iri.startsWith(ns)`, computed on the character lists. -/
def strStartsWith (s pre : String) : Bool := pre.data.isPrefixOf s.data

/-- `iri.slice(n)` (drop the first `n` characters). -/
def strDrop (s : String) (n : Nat) : String := ⟨s.data.drop n⟩

/-- `s.toLowerCase()`, computed on the character list. -/
def strToLower (s : String) : String := ⟨s.data.map Char.toLower⟩

/-- `iriToCurieIfCommon(iri)`: first matching namespace wins, otherwise the
IRI is returned unmodified. -/
def iriToCurieIfCommon (iri : String) : String :=
  match COMMON_PREFIXES.find? (fun nsp => strStartsWith iri nsp.1) with
  | some (ns, pfx) => pfx ++ ":" ++ strDrop iri ns.length
  | none => iri

/-! ## Code-point string comparison (model of `localeCompare`) -/

/-- Strict code-point lexicographic order on char lists. -/
def charListLt : List Char → List Char → Bool
  | [], [] => false
  | [], _ :: _ => true
  | _ :: _, [] => false
  | a :: as, b :: bs =>
    if a.toNat < b.toNat then true
    else if b.toNat < a.toNat then false
    else charListLt as bs

/-- Strict code-point lexicographic order on strings. -/
def strLt (a b : String) : Bool := charListLt a.data b.data

/-- Model of `a.localeCompare(b)`: `-1`, `0` or `1` by code-point
lexicographic comparison (the default collation is modelled as plain
code-point order). -/
def localeCompare (a b : String) : Int :=
  if strLt a b then -1 else if strLt b a then 1 else 0

/-! ## Literals and the literal preference resolver -/

/-- An N3 `Literal` object as consumed by `pickBestLiteral`: its `.value`
and `.language` (empty string when untagged). -/
structure Literal where
  value : String
  language : String
deriving DecidableEq

/-- `pickBestLiteral(literals)`: prefer language `"en"` (case-insensitive),
else a literal with no language tag, else `literals[0]`; `null` on an
empty list. -/
def pickBestLiteral (literals : List Literal) : Option Literal :=
  if literals.length = 0 then none
  else
    match (literals.filter fun l => l.language != "").find?
        (fun l => strToLower l.language == "en") with
    | some en => some en
    | none =>
      match literals.find? (fun l => l.language == "") with
      | some noLang => some noLang
      | none => literals.head?

/-- The literal-valued objects of `store.getQuads(subj, pred, null, null)`:
`quads.map(q => q.object).filter(o => o.termType === 'Literal')`, each
projected to its `.value`/`.language` pair. -/
def literalObjects (store : Store) (subjectIri p : String) : List Literal :=
  ((getQuads store (some (Term.namedNode subjectIri))
      (some (Term.namedNode p)) none).map Quad.object).filterMap
    fun o => match o with
      | Term.literal v lang => some ⟨v, lang⟩
      | _ => none

/-- `getPreferredLiteralForPredicates(store, subjectIri, predicateIris)`. -/
def getPreferredLiteralForPredicates (store : Store) (subjectIri : String) :
    List String → Option String
  | [] => none
  | p :: rest =>
    match pickBestLiteral (literalObjects store subjectIri p) with
    | some best => some best.value
    | none => getPreferredLiteralForPredicates store subjectIri rest

/-- `getPreferredIriForPredicates(store, subjectIri, predicateIris)`:
first `NamedNode` object found, per predicate in order. -/
def getPreferredIriForPredicates (store : Store) (subjectIri : String) :
    List String → Option String
  | [] => none
  | p :: rest =>
    match ((getQuads store (some (Term.namedNode subjectIri))
        (some (Term.namedNode p)) none).map Quad.object).find?
        (fun o => match o with | Term.namedNode _ => true | _ => false) with
    | some o => some o.value
    | none => getPreferredIriForPredicates store subjectIri rest

/-- `getOntologySubjectIri(store)`: subject of the first
`(?, rdf:type, owl:Ontology)` quad in enumeration order, else `null`. -/
def getOntologySubjectIri (store : Store) : Option String :=
  match getQuads store none (some (Term.namedNode (NS.rdf ++ "type")))
      (some (Term.namedNode (NS.owl ++ "Ontology"))) with
  | [] => none
  | c :: _ => some c.subject.value

/-- The metadata record returned by `extractOntologyMetadata`. -/
structure OntologyMetadata where
  ontologyIri : Option String
  ontologyName : Option String
  versionIri : Option String
  versionInfo : Option String
  description : Option String
  license : Option String
  rightsHolder : Option String
deriving DecidableEq

/-- `extractOntologyMetadata(store)` with the exact predicate-preference
lists of core.js. -/
def extractOntologyMetadata (store : Store) : OntologyMetadata :=
  match getOntologySubjectIri store with
  | none => ⟨none, none, none, none, none, none, none⟩
  | some S =>
    { ontologyIri := some S
      ontologyName := getPreferredLiteralForPredicates store S
        [NS.rdfs ++ "label", NS.dcterms ++ "title", NS.dc ++ "title"]
      versionIri := getPreferredIriForPredicates store S
        [NS.owl ++ "versionIRI", NS.dcterms ++ "hasVersion"]
      versionInfo := getPreferredLiteralForPredicates store S
        [NS.owl ++ "versionInfo", NS.dcterms ++ "hasVersion"]
      description := getPreferredLiteralForPredicates store S
        [NS.skos ++ "definition", NS.dcterms ++ "description",
         NS.dc ++ "description"]
      license := getPreferredIriForPredicates store S
        [NS.dcterms ++ "license", NS.dcterms ++ "rights",
         NS.dc ++ "rights", NS.dcterms ++ "accessRights"]
      rightsHolder := getPreferredLiteralForPredicates store S
        [NS.dcterms ++ "rightsHolder"] }

/-! ## Name normalizer `toPascalCase` -/

/-- The character class `[A-Za-z0-9]`. -/
def isAsciiAlnum (c : Char) : Bool :=
  (65 ≤ c.toNat && c.toNat ≤ 90) || (97 ≤ c.toNat && c.toNat ≤ 122) ||
    (48 ≤ c.toNat && c.toNat ≤ 57)

/-- `String(name).replace(/[^A-Za-z0-9]+/g, ' ')`: each maximal run of
non-alphanumeric characters becomes one space.  The boolean argument
records whether the previous character belonged to such a run (so the
space is emitted once per run). -/
def collapseRuns : Bool → List Char → List Char
  | _, [] => []
  | inRun, c :: rest =>
    if isAsciiAlnum c then c :: collapseRuns false rest
    else if inRun then collapseRuns true rest
    else ' ' :: collapseRuns true rest

/-- `.trim()` on the output of `collapseRuns` (the only whitespace
character present there is `' '`). -/
def trimSpaces (l : List Char) : List Char :=
  ((l.dropWhile fun c => c == ' ').reverse.dropWhile fun c => c == ' ').reverse

/-- Worker for the split: `inRun` records whether the previous character
belonged to a separator run (so each run flushes the current token exactly
once), `acc` is the current token reversed. -/
def splitWsAux : Bool → List Char → List Char → List (List Char)
  | _, acc, [] => [acc.reverse]
  | inRun, acc, c :: rest =>
    if c == ' ' then
      if inRun then splitWsAux true acc rest
      else acc.reverse :: splitWsAux true [] rest
    else splitWsAux false (c :: acc) rest

/-- `.split(/\s+/)` on the output of `trimSpaces ∘ collapseRuns` (whose only
whitespace is `' '`), with JavaScript semantics: splitting the empty string
yields `[""]`, a leading or trailing separator run yields an empty token. -/
def splitOnSpaceRuns (l : List Char) : List (List Char) := splitWsAux false [] l

/-- `p.charAt(0).toUpperCase() + p.slice(1)` (the empty segment stays
empty, as `''.charAt(0)` is `''`). -/
def pascalizeSegment : List Char → List Char
  | [] => []
  | c :: rest => c.toUpper :: rest

/-- `toPascalCase(name)`.  `none` models `null`; `!name` is also true for
the empty string. -/
def toPascalCase (name : Option String) : String :=
  match name with
  | none => "Ontology"
  | some s =>
    if s == "" then "Ontology"
    else
      let parts := splitOnSpaceRuns (trimSpaces (collapseRuns false s.data))
      if parts.length = 0 then "Ontology"
      else ⟨(parts.map pascalizeSegment).flatten⟩

example : toPascalCase none = "Ontology" := by decide
example : toPascalCase (some "example ontology name") = "ExampleOntologyName" := by decide
example : toPascalCase (some "---") = "" := by decide

/-! ## Element inclusion filter -/

/-- The five qualifying OWL types of `shouldIncludeElementSubject`. -/
def interestingTypes : List String :=
  [NS.owl ++ "Class", NS.owl ++ "NamedIndividual", NS.owl ++ "ObjectProperty",
   NS.owl ++ "DatatypeProperty", NS.owl ++ "AnnotationProperty"]

/-- `shouldIncludeElementSubject(store, subject)`: a non-blank (`NamedNode`)
subject with at least one `rdf:type` object among `interestingTypes`. -/
def shouldIncludeElementSubject (store : Store) (subject : Term) : Bool :=
  match subject with
  | Term.namedNode _ =>
    ((getQuads store (some subject) (some (Term.namedNode (NS.rdf ++ "type")))
        none).map fun q => q.object.value).any
      fun t => interestingTypes.contains t
  | _ => false

/-! ## Element table builder -/

/-- Inner map of `buildElementTableModel`: predicate IRI → ordered,
deduplicated value list, as an insertion-ordered association list
(JavaScript `Map` iterates keys in insertion order). -/
abbrev PredMap := List (String × List String)

/-- Outer map: subject IRI → `PredMap`, insertion-ordered. -/
abbrev SubjMap := List (String × PredMap)

/-- `if (!arr.includes(value)) arr.push(value)`. -/
def pushValue (vs : List String) (v : String) : List String :=
  if vs.contains v then vs else vs ++ [v]

/-- Add one (predicate, value) to a `PredMap`, creating the entry on first
use (insertion order) and deduplicating values. -/
def predMapAdd (pm : PredMap) (predIri v : String) : PredMap :=
  match pm with
  | [] => [(predIri, [v])]
  | (p, vs) :: rest =>
    if p == predIri then (p, pushValue vs v) :: rest
    else (p, vs) :: predMapAdd rest predIri v

/-- Add one (subject, predicate, value) to a `SubjMap`. -/
def subjMapAdd (sm : SubjMap) (subjIri predIri v : String) : SubjMap :=
  match sm with
  | [] => [(subjIri, predMapAdd [] predIri v)]
  | (s, pm) :: rest =>
    if s == subjIri then (s, predMapAdd pm predIri v) :: rest
    else (s, pm) :: subjMapAdd rest subjIri predIri v

/-- Display value of an object term: literal value or `NamedNode` IRI;
blank nodes (already skipped by the caller) have none. -/
def objDisplayValue : Term → Option String
  | Term.literal v _ => some v
  | Term.namedNode i => some i
  | _ => none

/-- The grouping loop of `buildElementTableModel`: skip quads with a
blank-node subject or object, group the rest by subject then predicate,
deduplicating values per (subject, predicate). -/
def buildSubjectMap : List Quad → SubjMap → SubjMap
  | [], sm => sm
  | q :: rest, sm =>
    if isBlankNode q.subject then buildSubjectMap rest sm
    else if isBlankNode q.object then buildSubjectMap rest sm
    else
      match objDisplayValue q.object with
      | none => buildSubjectMap rest sm
      | some v =>
        buildSubjectMap rest (subjMapAdd sm q.subject.value q.predicate.value v)

/-- `subjectMap.get(s)` (the empty map when the key is absent). -/
def smLookup (sm : SubjMap) (s : String) : PredMap :=
  match sm.find? (fun e => e.1 == s) with
  | some (_, pm) => pm
  | none => []

/-- `predMap.get(p) || []`. -/
def pmLookup (pm : PredMap) (p : String) : List String :=
  match pm.find? (fun e => e.1 == p) with
  | some (_, vs) => vs
  | none => []

/-- The `elementSubjects` of `buildElementTableModel`: subject-map keys (in
insertion order) passing `shouldIncludeElementSubject`. -/
def elementSubjectIris (store : Store) : List String :=
  ((buildSubjectMap store []).map Prod.fst).filter
    fun iri => shouldIncludeElementSubject store (Term.namedNode iri)

/-- `if (!l.contains x) l.push x`: a JavaScript `Set` insertion. -/
def insertUnique (l : List String) (x : String) : List String :=
  if l.contains x then l else l ++ [x]

/-- The `usedPredsSet` of `buildElementTableModel`, in `Set` insertion
order: predicates appearing on at least one included subject. -/
def usedPredicates (store : Store) : List String :=
  (elementSubjectIris store).foldl
    (fun acc subjIri =>
      ((smLookup (buildSubjectMap store []) subjIri).map Prod.fst).foldl
        insertUnique acc)
    []

/-- The priority predicates, in their fixed order. -/
def priorityPreds : List String :=
  [NS.rdf ++ "type", NS.rdfs ++ "label", NS.skos ++ "altLabel",
   NS.skos ++ "definition"]

/-- The comparator `(a, b) => iriToCurieIfCommon(a).localeCompare(iriToCurieIfCommon(b))`
read as a "sorts before or ties" relation (comparator result `≤ 0`). -/
def curieLe (a b : String) : Prop :=
  localeCompare (iriToCurieIfCommon a) (iriToCurieIfCommon b) ≤ 0

instance : DecidableRel curieLe := fun a b => by unfold curieLe; infer_instance

/-- The `orderedPredicates` of `buildElementTableModel`: priority
predicates present in the used set, in their fixed order, then the
remaining used predicates sorted by CURIE display form.  JavaScript
`Array.prototype.sort` is stable, which `List.insertionSort` models. -/
def orderedPredicates (store : Store) : List String :=
  (priorityPreds.filter fun p => (usedPredicates store).contains p) ++
    List.insertionSort curieLe
      ((usedPredicates store).filter fun p => !priorityPreds.contains p)

/-- A row object: insertion-ordered (key, value) pairs, as a JavaScript
object with string keys. -/
abbrev Row := List (String × String)

/-- `row[k] = v`: update in place if the key exists (keeping its
position), else append. -/
def recSet (r : Row) (k v : String) : Row :=
  match r with
  | [] => [(k, v)]
  | (kk, vv) :: rest =>
    if kk == k then (k, v) :: rest else (kk, vv) :: recSet rest k v

/-- `values.join('; ')`. -/
def joinSemi (vs : List String) : String :=
  match vs with
  | [] => ""
  | v :: rest => rest.foldl (fun acc s => acc ++ "; " ++ s) v

/-- The row built for one included subject: `row['iri'] = subj.value`,
then one field per ordered predicate. -/
def mkRow (store : Store) (subjIri : String) : Row :=
  (orderedPredicates store).foldl
    (fun row p =>
      recSet row p
        (joinSemi (pmLookup (smLookup (buildSubjectMap store []) subjIri) p)))
    (recSet [] "iri" subjIri)

/-- The table model returned by `buildElementTableModel`. -/
structure TableModel where
  headers : List String
  predicates : List (Option String)
  rows : List Row
deriving DecidableEq

/-- `buildElementTableModel(store)`. -/
def buildElementTableModel (store : Store) : TableModel :=
  { headers := "iri" :: (orderedPredicates store).map iriToCurieIfCommon
    predicates := none :: (orderedPredicates store).map some
    rows := (elementSubjectIris store).map (mkRow store) }

/-! ## Filter and sort -/

/-- `s.includes(sub)`: substring containment. -/
def strContainsSub (s sub : String) : Bool :=
  (List.range (s.data.length + 1)).any fun i => sub.data.isPrefixOf (s.data.drop i)

/-- `row[k]`, or the default when the key is absent (`?? d`). -/
def rowGetD (row : Row) (k d : String) : String :=
  match row.find? (fun e => e.1 == k) with
  | some (_, v) => v
  | none => d

/-- `Object.values(row)`. -/
def rowValues (row : Row) : List String := row.map Prod.snd

/-- The `filtered` rows of `filterAndSortRows`: every row when the
lower-cased query is empty, else the rows with some field containing it
(case-insensitive). -/
def filteredRows (model : TableModel) (query : Option String) : List Row :=
  if strToLower (query.getD "") == "" then model.rows
  else
    model.rows.filter fun row =>
      (rowValues row).any fun v => strContainsSub (strToLower v) (strToLower (query.getD ""))

/-- The sort comparator of `filterAndSortRows`:
`String(a[headerKey] ?? '').localeCompare(String(b[headerKey] ?? ''))`,
negated for direction `'desc'`. -/
def jsCompareRows (headerKey sortDirection : String) (a b : Row) : Int :=
  let cmp := localeCompare (rowGetD a headerKey "") (rowGetD b headerKey "")
  if sortDirection == "asc" then cmp else -cmp

/-- "Sorts before or ties" relation of the comparator (result `≤ 0`). -/
def rowLe (headerKey sortDirection : String) (a b : Row) : Prop :=
  jsCompareRows headerKey sortDirection a b ≤ 0

instance (hk dir : String) : DecidableRel (rowLe hk dir) := fun a b => by
  unfold rowLe; infer_instance

/-- `filterAndSortRows(model, query, sortIndex, sortDirection)`.  The spread
copy plus in-place stable sort `[...filtered].sort(cmp)` is modelled by the
stable `List.insertionSort` on the filtered list. -/
def filterAndSortRows (model : TableModel) (query : Option String)
    (sortIndex : Option Int) (sortDirection : String) : List Row :=
  let filtered := filteredRows model query
  match sortIndex with
  | none => filtered
  | some i =>
    if i < 0 || (model.headers.length : Int) ≤ i then filtered
    else
      match if i == 0 then some "iri" else model.predicates.getD i.toNat none with
      | none => filtered
      | some hk =>
        if hk == "" then filtered
        else List.insertionSort (rowLe hk sortDirection) filtered

/-! ## Array-identity embedding of `filterAndSortRows`

`Array.prototype.sort` sorts its receiver in place.  To settle the frame
claim (the input model's row array is never mutated) the function is also
embedded at the level of array objects: a heap maps array references to
their contents, `model.rows` is a reference, `filter` and the spread copy
`[...filtered]` allocate fresh arrays, and `sort` overwrites the array its
receiver refers to.  The pure `filterAndSortRows` above is the value-level
reading of the same code. -/

/-- The array heap: index = array reference. -/
abbrev Heap := List (List Row)

/-- Dereference an array. -/
def heapGet (h : Heap) (r : Nat) : List Row := h.getD r []

/-- Allocate a fresh array. -/
def heapAlloc (h : Heap) (v : List Row) : Heap × Nat := (h ++ [v], h.length)

/-- Overwrite the array behind a reference (in-place mutation). -/
def heapSet (h : Heap) (r : Nat) (v : List Row) : Heap := h.set r v

/-- A table model whose `rows` field is an array reference. -/
structure ModelRef where
  headers : List String
  predicates : List (Option String)
  rowsRef : Nat

/-- `filterAndSortRows` at the array level: returns the final heap and the
reference holding the result.  `let filtered = model.rows` aliases the
model's array; `filtered.filter(...)` and `[...filtered]` allocate;
`.sort(cmp)` mutates the spread copy in place. -/
def filterAndSortRowsHp (h : Heap) (model : ModelRef) (query : Option String)
    (sortIndex : Option Int) (sortDirection : String) : Heap × Nat :=
  let q := strToLower (query.getD "")
  let hf :=
    if q == "" then (h, model.rowsRef)
    else
      heapAlloc h
        ((heapGet h model.rowsRef).filter fun row =>
          (rowValues row).any fun v => strContainsSub (strToLower v) q)
  match sortIndex with
  | none => hf
  | some i =>
    if i < 0 || (model.headers.length : Int) ≤ i then hf
    else
      match if i == 0 then some "iri" else model.predicates.getD i.toNat none with
      | none => hf
      | some hk =>
        if hk == "" then hf
        else
          let hc := heapAlloc hf.1 (heapGet hf.1 hf.2)
          (heapSet hc.1 hc.2
            (List.insertionSort (rowLe hk sortDirection) (heapGet hc.1 hc.2)),
           hc.2)

set_option maxRecDepth 10000 in
example :
    let store : Store :=
      [⟨Term.namedNode "http://example.org/ClassA",
        Term.namedNode (NS.rdf ++ "type"), Term.namedNode (NS.owl ++ "Class")⟩,
       ⟨Term.namedNode "http://example.org/ClassA",
        Term.namedNode (NS.rdfs ++ "label"), Term.literal "Class A" "en"⟩]
    buildElementTableModel store =
      { headers := ["iri", "rdf:type", "rdfs:label"]
        predicates := [none, some (NS.rdf ++ "type"), some (NS.rdfs ++ "label")]
        rows := [[("iri", "http://example.org/ClassA"),
                  (NS.rdf ++ "type", NS.owl ++ "Class"),
                  (NS.rdfs ++ "label", "Class A")]] } := by decide

/-! ## Order toolkit for the code-point comparison -/

theorem charToNat_inj {a b : Char} (h : a.toNat = b.toNat) : a = b := by
  have h2 := congrArg Char.ofNat h
  simpa [Char.ofNat_toNat] using h2

theorem charListLt_asymm :
    ∀ {a b : List Char}, charListLt a b = true → charListLt b a = false
  | [], [], _ => rfl
  | [], _ :: _, _ => rfl
  | _ :: _, [], h => by simp [charListLt] at h
  | a :: as, b :: bs, h => by
    simp only [charListLt] at h ⊢
    by_cases h1 : a.toNat < b.toNat
    · have h2 : ¬ b.toNat < a.toNat := by omega
      simp [h1, h2]
    · by_cases h2 : b.toNat < a.toNat
      · simp [h1, h2] at h
      · simp only [h1, h2, if_neg, if_false] at h ⊢
        exact charListLt_asymm h

theorem charListLt_connex :
    ∀ {a b : List Char}, charListLt a b = false → charListLt b a = false → a = b
  | [], [], _, _ => rfl
  | [], _ :: _, h, _ => by simp [charListLt] at h
  | _ :: _, [], _, h => by simp [charListLt] at h
  | a :: as, b :: bs, h, h2 => by
    simp only [charListLt] at h h2
    by_cases h3 : a.toNat < b.toNat
    · simp [h3] at h
    · by_cases h4 : b.toNat < a.toNat
      · simp [h3, h4] at h2
      · simp only [h3, h4, if_neg, if_false] at h h2
        have hab : a = b := charToNat_inj (by omega)
        rw [hab, charListLt_connex h h2]

theorem charListLt_trans :
    ∀ {a b c : List Char}, charListLt a b = true → charListLt b c = true →
      charListLt a c = true
  | [], b, c, h, h2 => by
    cases c with
    | nil =>
      cases b with
      | nil => exact h2
      | cons x xs => simp [charListLt] at h2
    | cons x xs => simp [charListLt]
  | _ :: _, [], _, h, _ => by simp [charListLt] at h
  | _ :: _, _ :: _, [], _, h2 => by simp [charListLt] at h2
  | a :: as, b :: bs, c :: cs, h, h2 => by
    simp only [charListLt] at h h2 ⊢
    rcases Nat.lt_trichotomy a.toNat b.toNat with hab | hab | hab
    · rcases Nat.lt_trichotomy b.toNat c.toNat with hbc | hbc | hbc
      · rw [if_pos (Nat.lt_trans hab hbc)]
      · rw [if_pos (hbc ▸ hab)]
      · rw [if_neg (Nat.lt_asymm hbc), if_pos hbc] at h2
        simp at h2
    · rw [if_neg (by omega), if_neg (by omega)] at h
      rcases Nat.lt_trichotomy b.toNat c.toNat with hbc | hbc | hbc
      · rw [if_pos (by omega)]
      · rw [if_neg (by omega), if_neg (by omega)] at h2
        rw [if_neg (by omega), if_neg (by omega)]
        exact charListLt_trans h h2
      · rw [if_neg (Nat.lt_asymm hbc), if_pos hbc] at h2
        simp at h2
    · rw [if_neg (Nat.lt_asymm hab), if_pos hab] at h
      simp at h

theorem strLt_asymm {a b : String} (h : strLt a b = true) : strLt b a = false :=
  charListLt_asymm h

theorem strLt_connex {a b : String} (h : strLt a b = false)
    (h2 : strLt b a = false) : a = b := by
  cases a with
  | mk da =>
    cases b with
    | mk db => exact congrArg String.mk (charListLt_connex h h2)

theorem strLt_trans {a b c : String} (h : strLt a b = true)
    (h2 : strLt b c = true) : strLt a c = true :=
  charListLt_trans h h2

theorem charListLt_irrefl : ∀ (l : List Char), charListLt l l = false
  | [] => rfl
  | c :: cs => by
    simp only [charListLt, Nat.lt_irrefl, if_false]
    exact charListLt_irrefl cs

theorem strLt_irrefl (a : String) : strLt a a = false :=
  charListLt_irrefl a.data

/-- `localeCompare a b ≤ 0` says exactly that `b` is not strictly below
`a`. -/
theorem localeCompare_nonpos_iff {a b : String} :
    localeCompare a b ≤ 0 ↔ strLt b a = false := by
  unfold localeCompare
  by_cases h : strLt a b = true
  · simp [h, strLt_asymm h]
  · simp only [Bool.not_eq_true] at h
    by_cases h2 : strLt b a = true <;> simp [h, h2]

theorem localeCompare_neg_nonpos_iff {a b : String} :
    -localeCompare a b ≤ 0 ↔ strLt a b = false := by
  unfold localeCompare
  by_cases h : strLt a b = true
  · simp [h]
  · simp only [Bool.not_eq_true] at h
    by_cases h2 : strLt b a = true <;> simp [h, h2]

/-! ## Uniqueness of a sorted permutation with distinct keys -/

/-- Two lists that are permutations of each other, both pairwise ordered by
a relation that is antisymmetric up to a key, and whose keys are distinct,
are equal.  This settles that a stable sort's output is determined by the
multiset and the comparator once keys are distinct. -/
theorem eq_of_perm_of_pairwise_key {α : Type} (key : α → String)
    (r : α → α → Prop) (hanti : ∀ x y, r x y → r y x → key x = key y) :
    ∀ (l₁ l₂ : List α), l₁.Perm l₂ → l₁.Pairwise r → l₂.Pairwise r →
      (l₁.map key).Nodup → l₁ = l₂
  | [], l₂, hp, _, _, _ => (hp.symm.eq_nil).symm
  | a :: t₁, [], hp, _, _, _ => hp.eq_nil
  | a :: t₁, b :: t₂, hp, hs₁, hs₂, hnd => by
    have hd : a = b := by
      have ha : a ∈ b :: t₂ := hp.mem_iff.mp (List.mem_cons_self a t₁)
      rcases List.mem_cons.mp ha with h | ha2
      · exact h
      · have hb : b ∈ a :: t₁ := hp.symm.mem_iff.mp (List.mem_cons_self b t₂)
        rcases List.mem_cons.mp hb with h | hb2
        · exact h.symm
        · have hr1 : r a b := (List.pairwise_cons.mp hs₁).1 b hb2
          have hr2 : r b a := (List.pairwise_cons.mp hs₂).1 a ha2
          have hk : key a = key b := hanti a b hr1 hr2
          have hnd2 := List.nodup_cons.mp (List.map_cons key a t₁ ▸ hnd)
          exact absurd (hk ▸ List.mem_map_of_mem key hb2) hnd2.1
    subst hd
    have ht : t₁ = t₂ :=
      eq_of_perm_of_pairwise_key key r hanti t₁ t₂ hp.cons_inv
        (List.pairwise_cons.mp hs₁).2 (List.pairwise_cons.mp hs₂).2
        (List.nodup_cons.mp (List.map_cons key a t₁ ▸ hnd)).2
    rw [ht]

/-! ## Helper facts about `pickBestLiteral` -/

/-- The English-tag test of `pickBestLiteral`, exact up to case. -/
def isEnTag (l : Literal) : Bool := strToLower l.language == "en"

theorem isEnTag_language_ne_empty {l : Literal} (h : isEnTag l = true) :
    (l.language != "") = true := by
  rcases l with ⟨v, lang⟩
  cases lang with
  | mk d =>
    cases d with
    | nil => simp [isEnTag, strToLower] at h
    | cons c cs =>
      have hne : ({ data := c :: cs } : String) ≠ "" := by
        intro he
        have hd := congrArg String.data he
        simp at hd
      simp [bne, hne]

theorem find?_pred_congr {α : Type} (p q : α → Bool) (h : ∀ a, p a = q a) :
    ∀ l : List α, l.find? p = l.find? q
  | [] => rfl
  | a :: l => by
    by_cases ha : p a = true
    · rw [List.find?_cons_of_pos _ ha, List.find?_cons_of_pos _ ((h a) ▸ ha)]
    · rw [List.find?_cons_of_neg _ ha, List.find?_cons_of_neg _ ((h a) ▸ ha)]
      exact find?_pred_congr p q h l

/-- Finding with `q` inside `filter p` is finding with `q` outright when
`q` implies `p`. -/
theorem find?_filter_of_imp {α : Type} (p q : α → Bool)
    (h : ∀ a, q a = true → p a = true) :
    ∀ l : List α, (l.filter p).find? q = l.find? q
  | [] => rfl
  | a :: l => by
    by_cases hq : q a = true
    · rw [List.filter_cons_of_pos (h a hq), List.find?_cons_of_pos _ hq,
        List.find?_cons_of_pos _ hq]
    · by_cases hp : p a = true
      · rw [List.filter_cons_of_pos hp, List.find?_cons_of_neg _ hq,
          List.find?_cons_of_neg _ hq]
        exact find?_filter_of_imp p q h l
      · rw [List.filter_cons_of_neg (by simpa using hp),
          List.find?_cons_of_neg _ hq]
        exact find?_filter_of_imp p q h l

theorem pickBestLiteral_isSome {lits : List Literal} (h : lits ≠ []) :
    (pickBestLiteral lits).isSome = true := by
  unfold pickBestLiteral
  rw [if_neg (by simpa using h)]
  cases hfind : (lits.filter fun l => l.language != "").find?
      (fun l => strToLower l.language == "en") with
  | some en => simp
  | none =>
    cases hfind2 : lits.find? (fun l => l.language == "") with
    | some nl => simp
    | none =>
      cases lits with
      | nil => exact absurd rfl h
      | cons x xs => simp

theorem pickBestLiteral_nil : pickBestLiteral [] = none := rfl

/-! ## C1, C4, C10, C6, C7 -/

/-- C1 (code evaluated at the failing input): for an input made only of
non-alphanumeric characters, `toPascalCase` returns the empty string, not
the documented fallback `"Ontology"`.  JavaScript `''.split(/\s+/)` yields
`['']`, never `[]`, so the `parts.length === 0` fallback branch is
unreachable and the single empty segment pascalizes to `""`. -/
theorem toPascalCase_symbols_only_empty :
    toPascalCase (some "---") = "" ∧ toPascalCase none = "Ontology" ∧
      toPascalCase (some "example ontology name") = "ExampleOntologyName" := by
  refine ⟨by decide, by decide, by decide⟩

/-- C4: `pickBestLiteral` returns an `"en"`-tagged literal (case-insensitive)
when one exists, else an untagged literal when one exists, else the first
candidate in input order, and returns `none` exactly on the empty list. -/
theorem pickBestLiteral_preference_spec (lits : List Literal) :
    (pickBestLiteral lits = none ↔ lits = []) ∧
    ((∃ l ∈ lits, isEnTag l = true) →
      ∃ l, pickBestLiteral lits = some l ∧ l ∈ lits ∧ isEnTag l = true) ∧
    ((∀ l ∈ lits, isEnTag l = false) → (∃ l ∈ lits, l.language = "") →
      ∃ l, pickBestLiteral lits = some l ∧ l ∈ lits ∧ l.language = "") ∧
    ((∀ l ∈ lits, isEnTag l = false) → (∀ l ∈ lits, l.language ≠ "") →
      pickBestLiteral lits = lits.head?) := by
  refine ⟨⟨fun hnone => ?_, fun hnil => by rw [hnil]; rfl⟩, ?_, ?_, ?_⟩
  · by_contra hne
    have := pickBestLiteral_isSome hne
    rw [hnone] at this
    simp at this
  · rintro ⟨l, hl, hen⟩
    have hne : lits ≠ [] := by rintro rfl; simp at hl
    have hsome : ((lits.filter fun l => l.language != "").find?
        (fun l => strToLower l.language == "en")).isSome := by
      rw [List.find?_isSome]
      exact ⟨l, List.mem_filter.mpr ⟨hl, isEnTag_language_ne_empty hen⟩, hen⟩
    rcases Option.isSome_iff_exists.mp hsome with ⟨en, hfind⟩
    refine ⟨en, ?_, ?_, List.find?_some hfind⟩
    · unfold pickBestLiteral
      rw [if_neg (by simpa using hne), hfind]
    · exact (List.mem_filter.mp (List.mem_of_find?_eq_some hfind)).1
  · intro hno
    rintro ⟨l, hl, hlang⟩
    have hne : lits ≠ [] := by rintro rfl; simp at hl
    have hnone1 : (lits.filter fun l => l.language != "").find?
        (fun l => strToLower l.language == "en") = none := by
      rw [List.find?_eq_none]
      intro x hx
      have := hno x (List.mem_filter.mp hx).1
      simp [isEnTag] at this
      simp [this]
    have hsome : (lits.find? fun l => l.language == "").isSome := by
      rw [List.find?_isSome]
      exact ⟨l, hl, by simp [hlang]⟩
    rcases Option.isSome_iff_exists.mp hsome with ⟨nl, hfind⟩
    refine ⟨nl, ?_, List.mem_of_find?_eq_some hfind, by simpa using List.find?_some hfind⟩
    unfold pickBestLiteral
    rw [if_neg (by simpa using hne), hnone1, hfind]
  · intro hno hall
    cases hne : lits with
    | nil => rfl
    | cons x xs =>
      rw [← hne]
      have hne2 : lits ≠ [] := by rw [hne]; simp
      have hnone1 : (lits.filter fun l => l.language != "").find?
          (fun l => strToLower l.language == "en") = none := by
        rw [List.find?_eq_none]
        intro a ha
        have := hno a (List.mem_filter.mp ha).1
        simp [isEnTag] at this
        simp [this]
      have hnone2 : lits.find? (fun l => l.language == "") = none := by
        rw [List.find?_eq_none]
        intro a ha
        simpa using hall a ha
      unfold pickBestLiteral
      rw [if_neg (by simpa using hne2), hnone1, hnone2]

/-- C4 witness: on `[fr, en]` the `"en"`-tagged literal is picked. -/
theorem pickBestLiteral_preference_spec_witness :
    ∃ l, pickBestLiteral [⟨"French", "fr"⟩, ⟨"English", "en"⟩] = some l ∧
      l ∈ [(⟨"French", "fr"⟩ : Literal), ⟨"English", "en"⟩] ∧ isEnTag l = true :=
  (pickBestLiteral_preference_spec [⟨"French", "fr"⟩, ⟨"English", "en"⟩]).2.1
    ⟨⟨"English", "en"⟩, by decide, by decide⟩

/-- C10: the English tier fires exactly on a lowercased tag equal to `"en"`
(first such literal in input order wins); a regional tag such as `"en-US"`
is not preferred, so an untagged literal beats it; the untagged tier also
returns the first untagged literal in input order. -/
theorem pickBestLiteral_exact_en_first (lits : List Literal) :
    ((lits.find? isEnTag).isSome →
      pickBestLiteral lits = lits.find? isEnTag) ∧
    (lits.find? isEnTag = none →
      (lits.find? fun l => l.language == "").isSome →
      pickBestLiteral lits = lits.find? fun l => l.language == "") ∧
    pickBestLiteral [⟨"colour", "en-US"⟩, ⟨"color", ""⟩] =
      some ⟨"color", ""⟩ := by
  have hfilter : (lits.filter fun l => l.language != "").find?
      (fun l => strToLower l.language == "en") = lits.find? isEnTag := by
    have h1 := find?_filter_of_imp (fun l => l.language != "") isEnTag
      (fun a ha => isEnTag_language_ne_empty ha) lits
    have h2 : (lits.filter fun l => l.language != "").find?
        (fun l => strToLower l.language == "en") =
        (lits.filter fun l => l.language != "").find? isEnTag := by
      apply find?_pred_congr
      intro a
      rfl
    rw [h2, h1]
  refine ⟨fun hsome => ?_, fun hnone1 hsome2 => ?_, by decide⟩
  · have hne : lits ≠ [] := by
      rintro rfl
      simp at hsome
    rcases Option.isSome_iff_exists.mp hsome with ⟨en, hfind⟩
    unfold pickBestLiteral
    rw [if_neg (by simpa using hne), hfilter, hfind]
  · have hne : lits ≠ [] := by
      rintro rfl
      simp at hsome2
    rcases Option.isSome_iff_exists.mp hsome2 with ⟨nl, hfind⟩
    unfold pickBestLiteral
    rw [if_neg (by simpa using hne), hfilter, hnone1, hfind]

/-- C10 witness: on `[fr, en]` the picked literal is the first
`"en"`-tagged one. -/
theorem pickBestLiteral_exact_en_first_witness :
    pickBestLiteral [⟨"French", "fr"⟩, ⟨"English", "en"⟩] =
      [(⟨"French", "fr"⟩ : Literal), ⟨"English", "en"⟩].find? isEnTag :=
  (pickBestLiteral_exact_en_first [⟨"French", "fr"⟩, ⟨"English", "en"⟩]).1
    (by decide)

/-- C6: the literal getter resolves exactly the first predicate in the
list that has at least one literal-valued object for the subject (the
preference resolver applied to that predicate's literals alone), and
returns `none` when no predicate has one: literals of different predicates
are never merged. -/
theorem getPreferredLiteral_first_predicate (store : Store) (subjIri : String)
    (preds : List String) :
    getPreferredLiteralForPredicates store subjIri preds =
      (preds.find? fun p => !(literalObjects store subjIri p).isEmpty).bind
        fun p =>
          (pickBestLiteral (literalObjects store subjIri p)).map Literal.value := by
  induction preds with
  | nil => rfl
  | cons p rest ih =>
    by_cases h : literalObjects store subjIri p = []
    · rw [List.find?_cons_of_neg _ (by simp [h]),
        getPreferredLiteralForPredicates, h, pickBestLiteral_nil]
      exact ih
    · have hsome := pickBestLiteral_isSome h
      rcases Option.isSome_iff_exists.mp hsome with ⟨best, hbest⟩
      rw [List.find?_cons_of_pos _ (by simpa using h),
        getPreferredLiteralForPredicates, hbest]
      simp [hbest]

/-- C7: when the store has no `(?, rdf:type, owl:Ontology)` triple,
`extractOntologyMetadata` returns the all-`null` record. -/
theorem extractOntologyMetadata_all_null (store : Store)
    (h : ∀ q ∈ store, ¬(q.predicate = Term.namedNode (NS.rdf ++ "type") ∧
        q.object = Term.namedNode (NS.owl ++ "Ontology"))) :
    extractOntologyMetadata store =
      ⟨none, none, none, none, none, none, none⟩ := by
  have hg : getOntologySubjectIri store = none := by
    unfold getOntologySubjectIri getQuads
    rw [List.filter_eq_nil_iff.mpr ?_]
    intro q hq
    have := h q hq
    simp only [termMatches, Bool.true_and, Bool.and_eq_true, beq_iff_eq]
    rintro ⟨h1, h2⟩
    exact this ⟨h1.symm, h2.symm⟩
  unfold extractOntologyMetadata
  rw [hg]

/-- C7 witness: a store with one unrelated triple yields the all-`null`
record. -/
theorem extractOntologyMetadata_all_null_witness :
    extractOntologyMetadata
        [⟨Term.namedNode "http://example.org/s",
          Term.namedNode "http://example.org/p", Term.literal "v" ""⟩] =
      ⟨none, none, none, none, none, none, none⟩ :=
  extractOntologyMetadata_all_null
    [⟨Term.namedNode "http://example.org/s",
      Term.namedNode "http://example.org/p", Term.literal "v" ""⟩]
    (by decide)

/-! ## C8: empty-query / invalid-index passthrough -/

/-- C8: with a `null` or empty query the filter keeps every row; with a
`null`, negative or too-large sort index the call returns the filtered
rows unmodified (original order, no failure); in particular
`filterAndSortRows(model, '', null, 'asc')` is `model.rows`; and for any
sort parameters an empty-query call returns a permutation of every row. -/
theorem filterAndSortRows_passthrough (model : TableModel) :
    (filteredRows model none = model.rows ∧
      filteredRows model (some "") = model.rows) ∧
    (∀ (q : Option String) (dir : String) (si : Option Int),
      (si = none ∨ ∃ i, si = some i ∧
        (i < 0 ∨ (model.headers.length : Int) ≤ i)) →
      filterAndSortRows model q si dir = filteredRows model q) ∧
    (∀ (si : Option Int) (dir : String),
      (filterAndSortRows model none si dir).Perm model.rows) ∧
    filterAndSortRows model none none "asc" = model.rows ∧
    filterAndSortRows model (some "") none "asc" = model.rows := by
  have hA : filteredRows model none = model.rows := rfl
  have hB : filteredRows model (some "") = model.rows := rfl
  have hinvalid : ∀ (q : Option String) (dir : String) (si : Option Int),
      (si = none ∨ ∃ i, si = some i ∧
        (i < 0 ∨ (model.headers.length : Int) ≤ i)) →
      filterAndSortRows model q si dir = filteredRows model q := by
    intro q dir si hsi
    rcases hsi with rfl | ⟨i, rfl, hi⟩
    · rfl
    · have hcond : (decide (i < 0) || decide ((model.headers.length : Int) ≤ i)) = true := by
        rcases hi with hi | hi <;> simp [hi]
      unfold filterAndSortRows
      simp only [hcond, if_true]
  have hperm : ∀ (si : Option Int) (dir : String),
      (filterAndSortRows model none si dir).Perm model.rows := by
    intro si dir
    unfold filterAndSortRows
    cases si with
    | none => rw [hA]
    | some i =>
      cases hcond : (decide (i < 0) || decide ((model.headers.length : Int) ≤ i)) with
      | true => simp only [hcond, if_true]; rw [hA]
      | false =>
        simp only [hcond, Bool.false_eq_true, if_false]
        cases hhk : (if i == 0 then some "iri"
            else model.predicates.getD i.toNat none) with
        | none => rw [hA]
        | some hk =>
          cases hke : hk == "" with
          | true => simp only [hke, if_true]; rw [hA]
          | false =>
            simp only [hke, Bool.false_eq_true, if_false]
            rw [hA]
            exact List.perm_insertionSort _ _
  exact ⟨⟨hA, hB⟩, hinvalid, hperm, rfl, rfl⟩

/-- A fixed example model used by witnesses and counterexamples. -/
def exampleModel : TableModel :=
  { headers := ["iri", "x"]
    predicates := [none, some "x"]
    rows := [[("iri", "b"), ("x", "1")], [("iri", "a"), ("x", "2")]] }

/-- C8 witness: an out-of-range index returns the filtered rows. -/
theorem filterAndSortRows_passthrough_witness :
    filterAndSortRows exampleModel (some "q") (some 5) "desc" =
      filteredRows exampleModel (some "q") :=
  (filterAndSortRows_passthrough exampleModel).2.1 (some "q") "desc" (some 5)
    (Or.inr ⟨5, rfl, Or.inr (by decide)⟩)

/-! ## C9: the input model's row array is never mutated -/

theorem heapGet_append_lt {h : Heap} {r : Nat} (hr : r < h.length)
    (v : List Row) : heapGet (h ++ [v]) r = heapGet h r := by
  unfold heapGet
  rw [List.getD_eq_getElem?_getD, List.getD_eq_getElem?_getD,
    List.getElem?_append_left hr]

theorem heapGet_set_ne {h : Heap} {r i : Nat} (hne : i ≠ r) (v : List Row) :
    heapGet (h.set i v) r = heapGet h r := by
  unfold heapGet
  rw [List.getD_eq_getElem?_getD, List.getD_eq_getElem?_getD,
    List.getElem?_set_ne hne]

/-- C9: at the array level, `filterAndSortRows` leaves the model's row
array untouched for every query, sort index and direction: `filter`
allocates a new array and the sort mutates only the spread copy
`[...filtered]`, so the array behind `model.rows` is the same after the
call.  Row records are plain values here (the code never writes to a row
object, it only reads fields). -/
theorem filterAndSortRowsHp_frame (h : Heap) (model : ModelRef)
    (query : Option String) (si : Option Int) (dir : String)
    (hr : model.rowsRef < h.length) :
    heapGet (filterAndSortRowsHp h model query si dir).1 model.rowsRef =
      heapGet h model.rowsRef := by
  unfold filterAndSortRowsHp heapAlloc heapSet
  cases hq : (strToLower (query.getD "") == "") with
  | true =>
    simp only [hq, if_true]
    cases si with
    | none => rfl
    | some i =>
      cases hcond : (decide (i < 0) || decide ((model.headers.length : Int) ≤ i)) with
      | true => simp only [hcond, if_true]
      | false =>
        simp only [hcond, Bool.false_eq_true, if_false]
        cases hhk : (if i == 0 then some "iri"
            else model.predicates.getD i.toNat none) with
        | none => rfl
        | some hk =>
          cases hke : hk == "" with
          | true => simp only [hke, if_true]
          | false =>
            simp only [hke, Bool.false_eq_true, if_false]
            rw [heapGet_set_ne (by omega) _, heapGet_append_lt hr]
  | false =>
    simp only [hq, Bool.false_eq_true, if_false]
    have hr2 : model.rowsRef < (h ++ [(heapGet h model.rowsRef).filter fun row =>
        (rowValues row).any fun v =>
          strContainsSub (strToLower v) (strToLower (query.getD ""))]).length := by
      rw [List.length_append]
      omega
    cases si with
    | none => exact heapGet_append_lt hr _
    | some i =>
      cases hcond : (decide (i < 0) || decide ((model.headers.length : Int) ≤ i)) with
      | true =>
        simp only [hcond, if_true]
        exact heapGet_append_lt hr _
      | false =>
        simp only [hcond, Bool.false_eq_true, if_false]
        cases hhk : (if i == 0 then some "iri"
            else model.predicates.getD i.toNat none) with
        | none => exact heapGet_append_lt hr _
        | some hk =>
          cases hke : hk == "" with
          | true =>
            simp only [hke, if_true]
            exact heapGet_append_lt hr _
          | false =>
            simp only [hke, Bool.false_eq_true, if_false]
            rw [heapGet_set_ne (by simp; omega) _,
              heapGet_append_lt hr2, heapGet_append_lt hr]

/-- C9 witness: on a one-array heap holding two rows, a sorting call
leaves the model's array as it was. -/
theorem filterAndSortRowsHp_frame_witness :
    heapGet (filterAndSortRowsHp [[[("iri", "b")], [("iri", "a")]]]
        ⟨["iri"], [none], 0⟩ none (some 0) "asc").1 0 =
      heapGet [[[("iri", "b")], [("iri", "a")]]] 0 :=
  filterAndSortRowsHp_frame [[[("iri", "b")], [("iri", "a")]]]
    ⟨["iri"], [none], 0⟩ none (some 0) "asc" (by decide)

/-! ## C2: sorting by the iri column -/

/-- `String(row['iri'] ?? '')`, the sort key of column index 0. -/
def rowIri (row : Row) : String := rowGetD row "iri" ""

theorem strNLt_trans {x y z : String} (h : strLt y x = false)
    (h2 : strLt z y = false) : strLt z x = false := by
  by_contra hzx
  rw [Bool.not_eq_false] at hzx
  cases hxy : strLt x y with
  | false =>
    rw [strLt_connex hxy h] at hzx
    rw [hzx] at h2
    simp at h2
  | true =>
    have h3 := strLt_trans hzx hxy
    rw [h3] at h2
    simp at h2

theorem rowLe_asc_iff {hk : String} {a b : Row} :
    rowLe hk "asc" a b ↔ strLt (rowGetD b hk "") (rowGetD a hk "") = false := by
  unfold rowLe jsCompareRows
  simp only [show ("asc" == "asc") = true from rfl, if_true]
  exact localeCompare_nonpos_iff

theorem rowLe_desc_iff {hk : String} {a b : Row} :
    rowLe hk "desc" a b ↔ strLt (rowGetD a hk "") (rowGetD b hk "") = false := by
  unfold rowLe jsCompareRows
  simp only [show ("desc" == "asc") = false from rfl, Bool.false_eq_true, if_false]
  exact localeCompare_neg_nonpos_iff

theorem rowLe_total (hk dir : String) (a b : Row) :
    rowLe hk dir a b ∨ rowLe hk dir b a := by
  unfold rowLe jsCompareRows
  cases hdir : dir == "asc" with
  | true =>
    cases h : strLt (rowGetD a hk "") (rowGetD b hk "") with
    | false => exact Or.inr (localeCompare_nonpos_iff.mpr h)
    | true => exact Or.inl (localeCompare_nonpos_iff.mpr (strLt_asymm h))
  | false =>
    cases h : strLt (rowGetD a hk "") (rowGetD b hk "") with
    | false => exact Or.inl (localeCompare_neg_nonpos_iff.mpr h)
    | true => exact Or.inr (localeCompare_neg_nonpos_iff.mpr (strLt_asymm h))

theorem rowLe_trans (hk dir : String) (a b c : Row) (h : rowLe hk dir a b)
    (h2 : rowLe hk dir b c) : rowLe hk dir a c := by
  unfold rowLe jsCompareRows at h h2 ⊢
  cases hdir : dir == "asc" with
  | true =>
    rw [hdir] at h h2
    have hA : localeCompare (rowGetD a hk "") (rowGetD b hk "") ≤ 0 := h
    have hB : localeCompare (rowGetD b hk "") (rowGetD c hk "") ≤ 0 := h2
    show localeCompare (rowGetD a hk "") (rowGetD c hk "") ≤ 0
    rw [localeCompare_nonpos_iff] at hA hB ⊢
    exact strNLt_trans hA hB
  | false =>
    rw [hdir] at h h2
    have hA : -localeCompare (rowGetD a hk "") (rowGetD b hk "") ≤ 0 := h
    have hB : -localeCompare (rowGetD b hk "") (rowGetD c hk "") ≤ 0 := h2
    show -localeCompare (rowGetD a hk "") (rowGetD c hk "") ≤ 0
    rw [localeCompare_neg_nonpos_iff] at hA hB ⊢
    exact strNLt_trans hB hA

/-- Reduction of `filterAndSortRows` at column index 0 when the model has
at least one header. -/
theorem filterAndSortRows_zero (model : TableModel) (q : Option String)
    (dir : String) (hh : 0 < model.headers.length) :
    filterAndSortRows model q (some 0) dir =
      List.insertionSort (rowLe "iri" dir) (filteredRows model q) := by
  have hcond : (decide ((0 : Int) < 0) ||
      decide ((model.headers.length : Int) ≤ (0 : Int))) = false := by
    have h1 : ¬ ((model.headers.length : Int) ≤ (0 : Int)) := by
      have h2 : (1 : Int) ≤ (model.headers.length : Int) := by
        exact_mod_cast hh
      omega
    simp [h1]
  unfold filterAndSortRows
  simp only [hcond, Bool.false_eq_true, if_false,
    show ((0 : Int) == 0) = true from rfl, if_true,
    show ("iri" == "") = false from rfl]

/-- A model with two rows sharing the same iri but differing elsewhere:
the stable sort keeps their filter order in both directions. -/
def tieModel : TableModel :=
  { headers := ["iri", "x"]
    predicates := [none, some "x"]
    rows := [[("iri", "a"), ("x", "1")], [("iri", "a"), ("x", "2")]] }

/-- A model with no headers at all: index 0 is out of range, so no sort
happens. -/
def noHeaderModel : TableModel :=
  { headers := []
    predicates := []
    rows := [[("iri", "b")], [("iri", "a")]] }

/-- C2 counterexample: with two rows tied on the iri value, the descending
sort is *not* the reverse of the ascending sort (the stable sort leaves
ties in filter order under both directions, while reversal swaps them);
and when the header list is empty, index 0 is out of range and the
"ascending" result is not sorted at all. -/
theorem filterAndSort_desc_not_reverse_cex :
    ¬ (filterAndSortRows tieModel none (some 0) "desc" =
        (filterAndSortRows tieModel none (some 0) "asc").reverse) ∧
    ¬ (filterAndSortRows noHeaderModel none (some 0) "asc").Pairwise
        (fun a b => strLt (rowIri b) (rowIri a) = false) := by
  constructor
  · decide
  · decide

/-- C2 (amended): for a model with at least one header, filtering then
sorting by column index 0 ascending yields rows whose iri values are
lexicographically non-decreasing; and the descending sort is exactly the
reverse of the ascending sort provided the filtered rows' iri values are
pairwise distinct. -/
theorem filterAndSort_iri_asc_desc (model : TableModel) (q : Option String)
    (hh : 0 < model.headers.length) :
    (filterAndSortRows model q (some 0) "asc").Pairwise
      (fun a b => strLt (rowIri b) (rowIri a) = false) ∧
    (((filteredRows model q).map rowIri).Nodup →
      filterAndSortRows model q (some 0) "desc" =
        (filterAndSortRows model q (some 0) "asc").reverse) := by
  haveI : IsTotal Row (rowLe "iri" "asc") := ⟨rowLe_total "iri" "asc"⟩
  haveI : IsTrans Row (rowLe "iri" "asc") := ⟨rowLe_trans "iri" "asc"⟩
  haveI : IsTotal Row (rowLe "iri" "desc") := ⟨rowLe_total "iri" "desc"⟩
  haveI : IsTrans Row (rowLe "iri" "desc") := ⟨rowLe_trans "iri" "desc"⟩
  have hasc := List.sorted_insertionSort (rowLe "iri" "asc") (filteredRows model q)
  have hdesc := List.sorted_insertionSort (rowLe "iri" "desc") (filteredRows model q)
  have hascP : (List.insertionSort (rowLe "iri" "asc")
      (filteredRows model q)).Pairwise
      (fun a b => strLt (rowIri b) (rowIri a) = false) :=
    hasc.imp (fun hab => rowLe_asc_iff.mp hab)
  constructor
  · rw [filterAndSortRows_zero model q "asc" hh]
    exact hascP
  · intro hnd
    rw [filterAndSortRows_zero model q "desc" hh,
      filterAndSortRows_zero model q "asc" hh]
    have hdescP : (List.insertionSort (rowLe "iri" "desc")
        (filteredRows model q)).Pairwise
        (fun a b => strLt (rowIri a) (rowIri b) = false) :=
      hdesc.imp (fun hab => rowLe_desc_iff.mp hab)
    have hrevP : ((List.insertionSort (rowLe "iri" "asc")
        (filteredRows model q)).reverse).Pairwise
        (fun a b => strLt (rowIri a) (rowIri b) = false) := by
      rw [List.pairwise_reverse]
      exact hascP.imp (fun hab => hab)
    have hperm : (List.insertionSort (rowLe "iri" "desc")
        (filteredRows model q)).Perm
        ((List.insertionSort (rowLe "iri" "asc")
          (filteredRows model q)).reverse) :=
      (List.perm_insertionSort _ _).trans
        ((List.perm_insertionSort _ _).symm.trans
          (List.reverse_perm _).symm)
    have hndD : ((List.insertionSort (rowLe "iri" "desc")
        (filteredRows model q)).map rowIri).Nodup :=
      (((List.perm_insertionSort (rowLe "iri" "desc")
        (filteredRows model q)).map rowIri).nodup_iff).mpr hnd
    exact eq_of_perm_of_pairwise_key rowIri
      (fun a b => strLt (rowIri a) (rowIri b) = false)
      (fun x y hxy hyx => strLt_connex hxy hyx) _ _ hperm hdescP hrevP hndD

/-- C2 witness: on a model with distinct iri values both amended parts
hold concretely. -/
theorem filterAndSort_iri_asc_desc_witness :
    (filterAndSortRows exampleModel none (some 0) "asc").Pairwise
      (fun a b => strLt (rowIri b) (rowIri a) = false) ∧
    filterAndSortRows exampleModel none (some 0) "desc" =
      (filterAndSortRows exampleModel none (some 0) "asc").reverse :=
  ⟨(filterAndSort_iri_asc_desc exampleModel none (by decide)).1,
   (filterAndSort_iri_asc_desc exampleModel none (by decide)).2 (by decide)⟩

/-! ## Association-map lemmas for the table builder -/

theorem mem_pushValue {vs : List String} {v x : String} :
    x ∈ pushValue vs v ↔ x ∈ vs ∨ x = v := by
  unfold pushValue
  by_cases h : vs.contains v = true
  · rw [if_pos h]
    have hv : v ∈ vs := List.elem_iff.mp h
    constructor
    · exact fun hx => Or.inl hx
    · rintro (hx | rfl)
      · exact hx
      · exact hv
  · rw [if_neg h]
    simp [List.mem_append]

theorem smLookup_nil (s : String) : smLookup [] s = [] := rfl

theorem smLookup_subjMapAdd_self (sm : SubjMap) (S p v : String) :
    smLookup (subjMapAdd sm S p v) S = predMapAdd (smLookup sm S) p v := by
  induction sm with
  | nil => simp [subjMapAdd, smLookup]
  | cons e rest ih =>
    rcases e with ⟨t, pm⟩
    unfold subjMapAdd
    by_cases h : (t == S) = true
    · rw [if_pos h]
      unfold smLookup
      rw [List.find?_cons_of_pos _ (by simpa using h),
        List.find?_cons_of_pos _ (by simpa using h)]
    · rw [if_neg h]
      unfold smLookup
      rw [List.find?_cons_of_neg _ (by simpa using h),
        List.find?_cons_of_neg _ (by simpa using h)]
      exact ih

theorem smLookup_subjMapAdd_ne (sm : SubjMap) (S T p v : String)
    (hne : T ≠ S) :
    smLookup (subjMapAdd sm S p v) T = smLookup sm T := by
  induction sm with
  | nil =>
    simp only [subjMapAdd, smLookup]
    rw [List.find?_cons_of_neg _ (by simp; exact fun h => absurd h.symm hne)]
  | cons e rest ih =>
    rcases e with ⟨t, pm⟩
    unfold subjMapAdd
    by_cases h : (t == S) = true
    · rw [if_pos h]
      unfold smLookup
      by_cases ht : (t == T) = true
      · simp only [beq_iff_eq] at h ht
        exact absurd (ht ▸ h : T = S) hne
      · rw [List.find?_cons_of_neg _ (by simpa using ht),
          List.find?_cons_of_neg _ (by simpa using ht)]
    · rw [if_neg h]
      unfold smLookup
      by_cases ht : (t == T) = true
      · rw [List.find?_cons_of_pos _ (by simpa using ht),
          List.find?_cons_of_pos _ (by simpa using ht)]
      · rw [List.find?_cons_of_neg _ (by simpa using ht),
          List.find?_cons_of_neg _ (by simpa using ht)]
        exact ih

theorem pmLookup_nil (p : String) : pmLookup [] p = [] := rfl

theorem pmLookup_predMapAdd_self (pm : PredMap) (P v : String) :
    pmLookup (predMapAdd pm P v) P = pushValue (pmLookup pm P) v := by
  induction pm with
  | nil => simp [predMapAdd, pmLookup, pushValue]
  | cons e rest ih =>
    rcases e with ⟨q, vs⟩
    unfold predMapAdd
    by_cases h : (q == P) = true
    · rw [if_pos h]
      unfold pmLookup
      rw [List.find?_cons_of_pos _ (by simpa using h),
        List.find?_cons_of_pos _ (by simpa using h)]
    · rw [if_neg h]
      unfold pmLookup
      rw [List.find?_cons_of_neg _ (by simpa using h),
        List.find?_cons_of_neg _ (by simpa using h)]
      exact ih

theorem pmLookup_predMapAdd_ne (pm : PredMap) (P Q v : String)
    (hne : Q ≠ P) :
    pmLookup (predMapAdd pm P v) Q = pmLookup pm Q := by
  induction pm with
  | nil =>
    simp only [predMapAdd, pmLookup]
    rw [List.find?_cons_of_neg _ (by simp; exact fun h => absurd h.symm hne)]
  | cons e rest ih =>
    rcases e with ⟨q, vs⟩
    unfold predMapAdd
    by_cases h : (q == P) = true
    · rw [if_pos h]
      unfold pmLookup
      by_cases hq : (q == Q) = true
      · simp only [beq_iff_eq] at h hq
        exact absurd (hq ▸ h : Q = P) hne
      · rw [List.find?_cons_of_neg _ (by simpa using hq),
          List.find?_cons_of_neg _ (by simpa using hq)]
    · rw [if_neg h]
      unfold pmLookup
      by_cases hq : (q == Q) = true
      · rw [List.find?_cons_of_pos _ (by simpa using hq),
          List.find?_cons_of_pos _ (by simpa using hq)]
      · rw [List.find?_cons_of_neg _ (by simpa using hq),
          List.find?_cons_of_neg _ (by simpa using hq)]
        exact ih

theorem mem_smKeys_subjMapAdd (sm : SubjMap) (S p v x : String) :
    x ∈ (subjMapAdd sm S p v).map Prod.fst ↔ x ∈ sm.map Prod.fst ∨ x = S := by
  induction sm with
  | nil => simp [subjMapAdd]
  | cons e rest ih =>
    rcases e with ⟨t, pm⟩
    unfold subjMapAdd
    by_cases h : (t == S) = true
    · rw [if_pos h]
      simp only [beq_iff_eq] at h
      subst h
      simp only [List.map_cons, List.mem_cons]
      tauto
    · rw [if_neg h]
      simp only [List.map_cons, List.mem_cons, ih]
      tauto

theorem mem_pmKeys_predMapAdd (pm : PredMap) (P v x : String) :
    x ∈ (predMapAdd pm P v).map Prod.fst ↔ x ∈ pm.map Prod.fst ∨ x = P := by
  induction pm with
  | nil => simp [predMapAdd]
  | cons e rest ih =>
    rcases e with ⟨q, vs⟩
    unfold predMapAdd
    by_cases h : (q == P) = true
    · rw [if_pos h]
      simp only [beq_iff_eq] at h
      subst h
      simp only [List.map_cons, List.mem_cons]
      tauto
    · rw [if_neg h]
      simp only [List.map_cons, List.mem_cons, ih]
      tauto

theorem mem_recSet {k v : String} {kv : String × String} :
    ∀ {r : Row}, kv ∈ recSet r k v → kv = (k, v) ∨ kv ∈ r
  | [], h => Or.inl (by simpa [recSet] using h)
  | (kk, vv) :: rest, h => by
    unfold recSet at h
    by_cases hk : (kk == k) = true
    · rw [if_pos hk] at h
      rcases List.mem_cons.mp h with h1 | h1
      · exact Or.inl h1
      · exact Or.inr (List.mem_cons_of_mem _ h1)
    · rw [if_neg hk] at h
      rcases List.mem_cons.mp h with h1 | h1
      · exact Or.inr (h1 ▸ List.mem_cons_self _ _)
      · rcases mem_recSet h1 with h2 | h2
        · exact Or.inl h2
        · exact Or.inr (List.mem_cons_of_mem _ h2)

theorem mem_insertUnique {l : List String} {x y : String} :
    y ∈ insertUnique l x ↔ y ∈ l ∨ y = x := by
  unfold insertUnique
  by_cases h : l.contains x = true
  · rw [if_pos h]
    have hv : x ∈ l := List.elem_iff.mp h
    constructor
    · exact fun hx => Or.inl hx
    · rintro (hx | rfl)
      · exact hx
      · exact hv
  · rw [if_neg h]
    simp [List.mem_append]

theorem nodup_insertUnique {l : List String} (h : l.Nodup) (x : String) :
    (insertUnique l x).Nodup := by
  unfold insertUnique
  by_cases hc : l.contains x = true
  · rw [if_pos hc]
    exact h
  · rw [if_neg hc]
    have hx : x ∉ l := fun hm => hc (List.elem_iff.mpr hm)
    simp [List.nodup_append, h, hx]

/-- Membership through the double fold that builds the used-predicate
set. -/
theorem mem_foldl_inner_insertUnique {β : Type} (f : β → List String) :
    ∀ (l : List β) (acc : List String) (x : String),
      x ∈ l.foldl (fun acc s => (f s).foldl insertUnique acc) acc ↔
        x ∈ acc ∨ ∃ s ∈ l, x ∈ f s := by
  have hone : ∀ (m : List String) (acc : List String) (x : String),
      x ∈ m.foldl insertUnique acc ↔ x ∈ acc ∨ x ∈ m := by
    intro m
    induction m with
    | nil => simp
    | cons a m ih =>
      intro acc x
      simp only [List.foldl_cons]
      rw [ih, mem_insertUnique]
      simp only [List.mem_cons]
      tauto
  intro l
  induction l with
  | nil => simp
  | cons s l ih =>
    intro acc x
    simp only [List.foldl_cons]
    rw [ih, hone]
    simp only [List.mem_cons]
    constructor
    · rintro ((h | h) | ⟨t, ht, hf⟩)
      · exact Or.inl h
      · exact Or.inr ⟨s, Or.inl rfl, h⟩
      · exact Or.inr ⟨t, Or.inr ht, hf⟩
    · rintro (h | ⟨t, (rfl | ht), hf⟩)
      · exact Or.inl (Or.inl h)
      · exact Or.inl (Or.inr hf)
      · exact Or.inr ⟨t, ht, hf⟩

theorem nodup_foldl_inner_insertUnique {β : Type} (f : β → List String) :
    ∀ (l : List β) (acc : List String), acc.Nodup →
      (l.foldl (fun acc s => (f s).foldl insertUnique acc) acc).Nodup := by
  have hone : ∀ (m : List String) (acc : List String), acc.Nodup →
      (m.foldl insertUnique acc).Nodup := by
    intro m
    induction m with
    | nil => exact fun acc h => h
    | cons a m ih =>
      intro acc h
      simp only [List.foldl_cons]
      exact ih _ (nodup_insertUnique h a)
  intro l
  induction l with
  | nil => exact fun acc h => h
  | cons s l ih =>
    intro acc h
    simp only [List.foldl_cons]
    exact ih _ (hone _ _ h)

/-! ## Provenance characterization of the subject map -/

/-- Quad `q` contributes display value `v` for subject `s` under predicate
`p`: it survives both blank-node gates and its object displays as `v`. -/
def QuadGives (s p v : String) (q : Quad) : Prop :=
  isBlankNode q.subject = false ∧ isBlankNode q.object = false ∧
    q.subject.value = s ∧ q.predicate.value = p ∧
    objDisplayValue q.object = some v

theorem mem_values_buildSubjectMap :
    ∀ (quads : List Quad) (sm : SubjMap) (s p v : String),
      v ∈ pmLookup (smLookup (buildSubjectMap quads sm) s) p ↔
        v ∈ pmLookup (smLookup sm s) p ∨ ∃ q ∈ quads, QuadGives s p v q
  | [], sm, s, p, v => by simp [buildSubjectMap]
  | q :: rest, sm, s, p, v => by
    unfold buildSubjectMap
    have hcons : ∀ (P : Quad → Prop), (∃ x ∈ q :: rest, P x) ↔
        P q ∨ ∃ x ∈ rest, P x := by
      intro P
      constructor
      · rintro ⟨x, hx, hp⟩
        rcases List.mem_cons.mp hx with rfl | hx2
        · exact Or.inl hp
        · exact Or.inr ⟨x, hx2, hp⟩
      · rintro (hp | ⟨x, hx, hp⟩)
        · exact ⟨q, List.mem_cons_self q rest, hp⟩
        · exact ⟨x, List.mem_cons_of_mem q hx, hp⟩
    by_cases hbs : isBlankNode q.subject = true
    · rw [if_pos hbs, mem_values_buildSubjectMap rest sm s p v, hcons]
      have hq : ¬ QuadGives s p v q := fun hg => by
        have h1 := hg.1
        rw [hbs] at h1
        exact Bool.noConfusion h1
      constructor
      · rintro (h | h)
        · exact Or.inl h
        · exact Or.inr (Or.inr h)
      · rintro (h | h | h)
        · exact Or.inl h
        · exact absurd h hq
        · exact Or.inr h
    · rw [if_neg hbs]
      by_cases hbo : isBlankNode q.object = true
      · rw [if_pos hbo, mem_values_buildSubjectMap rest sm s p v, hcons]
        have hq : ¬ QuadGives s p v q := fun hg => by
          have h1 := hg.2.1
          rw [hbo] at h1
          exact Bool.noConfusion h1
        constructor
        · rintro (h | h)
          · exact Or.inl h
          · exact Or.inr (Or.inr h)
        · rintro (h | h | h)
          · exact Or.inl h
          · exact absurd h hq
          · exact Or.inr h
      · rw [if_neg hbo]
        cases hobj : objDisplayValue q.object with
        | none =>
          rw [mem_values_buildSubjectMap rest sm s p v, hcons]
          have hq : ¬ QuadGives s p v q := fun hg => by
            have h1 := hg.2.2.2.2
            rw [hobj] at h1
            exact Option.noConfusion h1
          constructor
          · rintro (h | h)
            · exact Or.inl h
            · exact Or.inr (Or.inr h)
          · rintro (h | h | h)
            · exact Or.inl h
            · exact absurd h hq
            · exact Or.inr h
        | some w =>
          rw [mem_values_buildSubjectMap rest _ s p v, hcons]
          rw [Bool.not_eq_true] at hbs hbo
          by_cases hs : s = q.subject.value
          · subst hs
            rw [smLookup_subjMapAdd_self]
            by_cases hp : p = q.predicate.value
            · subst hp
              rw [pmLookup_predMapAdd_self, mem_pushValue]
              have hq : QuadGives q.subject.value q.predicate.value v q ↔ v = w := by
                constructor
                · intro hg
                  have h1 := hg.2.2.2.2
                  rw [hobj] at h1
                  exact (Option.some_inj.mp h1).symm
                · rintro rfl
                  exact ⟨hbs, hbo, rfl, rfl, hobj⟩
              constructor
              · rintro ((h | h) | h)
                · exact Or.inl h
                · exact Or.inr (Or.inl (hq.mpr h))
                · exact Or.inr (Or.inr h)
              · rintro (h | h | h)
                · exact Or.inl (Or.inl h)
                · exact Or.inl (Or.inr (hq.mp h))
                · exact Or.inr h
            · rw [pmLookup_predMapAdd_ne _ _ _ _ hp]
              have hq : ¬ QuadGives q.subject.value p v q := fun hg =>
                hp hg.2.2.2.1.symm
              constructor
              · rintro (h | h)
                · exact Or.inl h
                · exact Or.inr (Or.inr h)
              · rintro (h | h | h)
                · exact Or.inl h
                · exact absurd h hq
                · exact Or.inr h
          · rw [smLookup_subjMapAdd_ne _ _ _ _ _ hs]
            have hq : ¬ QuadGives s p v q := fun hg => hs hg.2.2.1.symm
            constructor
            · rintro (h | h)
              · exact Or.inl h
              · exact Or.inr (Or.inr h)
            · rintro (h | h | h)
              · exact Or.inl h
              · exact absurd h hq
              · exact Or.inr h

theorem mem_pmKeys_buildSubjectMap :
    ∀ (quads : List Quad) (sm : SubjMap) (s p : String),
      p ∈ (smLookup (buildSubjectMap quads sm) s).map Prod.fst ↔
        p ∈ (smLookup sm s).map Prod.fst ∨
          ∃ q ∈ quads, ∃ v, QuadGives s p v q
  | [], sm, s, p => by simp [buildSubjectMap]
  | q :: rest, sm, s, p => by
    unfold buildSubjectMap
    have hcons : ∀ (P : Quad → Prop), (∃ x ∈ q :: rest, P x) ↔
        P q ∨ ∃ x ∈ rest, P x := by
      intro P
      constructor
      · rintro ⟨x, hx, hp⟩
        rcases List.mem_cons.mp hx with rfl | hx2
        · exact Or.inl hp
        · exact Or.inr ⟨x, hx2, hp⟩
      · rintro (hp | ⟨x, hx, hp⟩)
        · exact ⟨q, List.mem_cons_self q rest, hp⟩
        · exact ⟨x, List.mem_cons_of_mem q hx, hp⟩
    by_cases hbs : isBlankNode q.subject = true
    · rw [if_pos hbs, mem_pmKeys_buildSubjectMap rest sm s p, hcons]
      have hq : ¬ ∃ v, QuadGives s p v q := by
        rintro ⟨v, hg⟩
        have h1 := hg.1
        rw [hbs] at h1
        exact Bool.noConfusion h1
      constructor
      · rintro (h | h)
        · exact Or.inl h
        · exact Or.inr (Or.inr h)
      · rintro (h | h | h)
        · exact Or.inl h
        · exact absurd h hq
        · exact Or.inr h
    · rw [if_neg hbs]
      by_cases hbo : isBlankNode q.object = true
      · rw [if_pos hbo, mem_pmKeys_buildSubjectMap rest sm s p, hcons]
        have hq : ¬ ∃ v, QuadGives s p v q := by
          rintro ⟨v, hg⟩
          have h1 := hg.2.1
          rw [hbo] at h1
          exact Bool.noConfusion h1
        constructor
        · rintro (h | h)
          · exact Or.inl h
          · exact Or.inr (Or.inr h)
        · rintro (h | h | h)
          · exact Or.inl h
          · exact absurd h hq
          · exact Or.inr h
      · rw [if_neg hbo]
        cases hobj : objDisplayValue q.object with
        | none =>
          rw [mem_pmKeys_buildSubjectMap rest sm s p, hcons]
          have hq : ¬ ∃ v, QuadGives s p v q := by
            rintro ⟨v, hg⟩
            have h1 := hg.2.2.2.2
            rw [hobj] at h1
            exact Option.noConfusion h1
          constructor
          · rintro (h | h)
            · exact Or.inl h
            · exact Or.inr (Or.inr h)
          · rintro (h | h | h)
            · exact Or.inl h
            · exact absurd h hq
            · exact Or.inr h
        | some w =>
          rw [mem_pmKeys_buildSubjectMap rest _ s p, hcons]
          rw [Bool.not_eq_true] at hbs hbo
          by_cases hs : s = q.subject.value
          · subst hs
            rw [smLookup_subjMapAdd_self, mem_pmKeys_predMapAdd]
            have hq : (∃ v, QuadGives q.subject.value p v q) ↔
                p = q.predicate.value := by
              constructor
              · rintro ⟨v, hg⟩
                exact hg.2.2.2.1.symm
              · rintro rfl
                exact ⟨w, hbs, hbo, rfl, rfl, hobj⟩
            constructor
            · rintro ((h | h) | h)
              · exact Or.inl h
              · exact Or.inr (Or.inl (hq.mpr h))
              · exact Or.inr (Or.inr h)
            · rintro (h | h | h)
              · exact Or.inl (Or.inl h)
              · exact Or.inl (Or.inr (hq.mp h))
              · exact Or.inr h
          · rw [smLookup_subjMapAdd_ne _ _ _ _ _ hs]
            have hq : ¬ ∃ v, QuadGives s p v q := by
              rintro ⟨v, hg⟩
              exact hs hg.2.2.1.symm
            constructor
            · rintro (h | h)
              · exact Or.inl h
              · exact Or.inr (Or.inr h)
            · rintro (h | h | h)
              · exact Or.inl h
              · exact absurd h hq
              · exact Or.inr h

theorem mem_smKeys_buildSubjectMap :
    ∀ (quads : List Quad) (sm : SubjMap) (s : String),
      s ∈ (buildSubjectMap quads sm).map Prod.fst ↔
        s ∈ sm.map Prod.fst ∨ ∃ q ∈ quads, ∃ p v, QuadGives s p v q
  | [], sm, s => by simp [buildSubjectMap]
  | q :: rest, sm, s => by
    unfold buildSubjectMap
    have hcons : ∀ (P : Quad → Prop), (∃ x ∈ q :: rest, P x) ↔
        P q ∨ ∃ x ∈ rest, P x := by
      intro P
      constructor
      · rintro ⟨x, hx, hp⟩
        rcases List.mem_cons.mp hx with rfl | hx2
        · exact Or.inl hp
        · exact Or.inr ⟨x, hx2, hp⟩
      · rintro (hp | ⟨x, hx, hp⟩)
        · exact ⟨q, List.mem_cons_self q rest, hp⟩
        · exact ⟨x, List.mem_cons_of_mem q hx, hp⟩
    by_cases hbs : isBlankNode q.subject = true
    · rw [if_pos hbs, mem_smKeys_buildSubjectMap rest sm s, hcons]
      have hq : ¬ ∃ p v, QuadGives s p v q := by
        rintro ⟨p, v, hg⟩
        have h1 := hg.1
        rw [hbs] at h1
        exact Bool.noConfusion h1
      constructor
      · rintro (h | h)
        · exact Or.inl h
        · exact Or.inr (Or.inr h)
      · rintro (h | h | h)
        · exact Or.inl h
        · exact absurd h hq
        · exact Or.inr h
    · rw [if_neg hbs]
      by_cases hbo : isBlankNode q.object = true
      · rw [if_pos hbo, mem_smKeys_buildSubjectMap rest sm s, hcons]
        have hq : ¬ ∃ p v, QuadGives s p v q := by
          rintro ⟨p, v, hg⟩
          have h1 := hg.2.1
          rw [hbo] at h1
          exact Bool.noConfusion h1
        constructor
        · rintro (h | h)
          · exact Or.inl h
          · exact Or.inr (Or.inr h)
        · rintro (h | h | h)
          · exact Or.inl h
          · exact absurd h hq
          · exact Or.inr h
      · rw [if_neg hbo]
        cases hobj : objDisplayValue q.object with
        | none =>
          rw [mem_smKeys_buildSubjectMap rest sm s, hcons]
          have hq : ¬ ∃ p v, QuadGives s p v q := by
            rintro ⟨p, v, hg⟩
            have h1 := hg.2.2.2.2
            rw [hobj] at h1
            exact Option.noConfusion h1
          constructor
          · rintro (h | h)
            · exact Or.inl h
            · exact Or.inr (Or.inr h)
          · rintro (h | h | h)
            · exact Or.inl h
            · exact absurd h hq
            · exact Or.inr h
        | some w =>
          rw [mem_smKeys_buildSubjectMap rest _ s, mem_smKeys_subjMapAdd, hcons]
          rw [Bool.not_eq_true] at hbs hbo
          have hq : (∃ p v, QuadGives s p v q) ↔ s = q.subject.value := by
            constructor
            · rintro ⟨p, v, hg⟩
              exact hg.2.2.1.symm
            · rintro rfl
              exact ⟨q.predicate.value, w, hbs, hbo, rfl, rfl, hobj⟩
          constructor
          · rintro ((h | h) | h)
            · exact Or.inl h
            · exact Or.inr (Or.inl (hq.mpr h))
            · exact Or.inr (Or.inr h)
          · rintro (h | h | h)
            · exact Or.inl (Or.inl h)
            · exact Or.inl (Or.inr (hq.mp h))
            · exact Or.inr h

/-! ## C5: blank nodes never reach the element table -/

/-- C5: every row of the built table is the row of an included non-blank
subject (one that has a qualifying rdf:type quad), and every cell is the
iri cell or a `'; '`-join of values that each come from a non-blank-subject,
non-blank-object quad (a literal value or a NamedNode IRI) — so no
blank-node identifier ever appears, even when a blank-node subject carries
a qualifying rdf:type triple. -/
theorem buildElementTable_excludes_blank_nodes (store : Store) :
    ∀ row ∈ (buildElementTableModel store).rows,
      ∃ s, shouldIncludeElementSubject store (Term.namedNode s) = true ∧
        (∃ q ∈ store, isBlankNode q.subject = false ∧
          isBlankNode q.object = false ∧ q.subject.value = s) ∧
        ∀ kv ∈ row, kv = ("iri", s) ∨
          ∃ p vals, kv = (p, joinSemi vals) ∧ ∀ v ∈ vals,
            ∃ q ∈ store, isBlankNode q.subject = false ∧
              isBlankNode q.object = false ∧
              objDisplayValue q.object = some v := by
  intro row hrow
  rcases List.mem_map.mp hrow with ⟨s, hs, rfl⟩
  have hinc : shouldIncludeElementSubject store (Term.namedNode s) = true :=
    (List.mem_filter.mp hs).2
  have hkey : s ∈ (buildSubjectMap store []).map Prod.fst :=
    (List.mem_filter.mp hs).1
  have hprov : ∃ q ∈ store, isBlankNode q.subject = false ∧
      isBlankNode q.object = false ∧ q.subject.value = s := by
    rcases (mem_smKeys_buildSubjectMap store [] s).mp hkey with h | ⟨q, hq, p, v, hg⟩
    · simp at h
    · exact ⟨q, hq, hg.1, hg.2.1, hg.2.2.1⟩
  refine ⟨s, hinc, hprov, ?_⟩
  intro kv hkv
  unfold mkRow at hkv
  have hfold : ∀ (l : List String) (init : Row) (kv : String × String),
      kv ∈ l.foldl (fun row p => recSet row p
        (joinSemi (pmLookup (smLookup (buildSubjectMap store []) s) p))) init →
      kv ∈ init ∨ ∃ p ∈ l, kv = (p,
        joinSemi (pmLookup (smLookup (buildSubjectMap store []) s) p)) := by
    intro l
    induction l with
    | nil => exact fun init kv h => Or.inl h
    | cons a l ih =>
      intro init kv h
      simp only [List.foldl_cons] at h
      rcases ih _ _ h with h2 | ⟨p, hp, hkv2⟩
      · rcases mem_recSet h2 with h3 | h3
        · exact Or.inr ⟨a, List.mem_cons_self a l, h3⟩
        · exact Or.inl h3
      · exact Or.inr ⟨p, List.mem_cons_of_mem a hp, hkv2⟩
  rcases hfold (orderedPredicates store) (recSet [] "iri" s) kv hkv with h | ⟨p, hp, hkv2⟩
  · left
    simpa [recSet] using h
  · right
    refine ⟨p, pmLookup (smLookup (buildSubjectMap store []) s) p, hkv2, ?_⟩
    intro v hv
    rcases (mem_values_buildSubjectMap store [] s p v).mp hv with h | ⟨q, hq, hg⟩
    · rw [smLookup_nil, pmLookup_nil] at h
      exact absurd h (List.not_mem_nil v)
    · exact ⟨q, hq, hg.1, hg.2.1, hg.2.2.2.2⟩

/-- A store in which a blank node carries a qualifying rdf:type triple
next to a genuine class subject. -/
def storeC5 : Store :=
  [⟨Term.blankNode "b0", Term.namedNode (NS.rdf ++ "type"),
    Term.namedNode (NS.owl ++ "Class")⟩,
   ⟨Term.namedNode "http://example.org/A", Term.namedNode (NS.rdf ++ "type"),
    Term.namedNode (NS.owl ++ "Class")⟩]

set_option maxRecDepth 10000 in
/-- C5 witness: the single row of `storeC5` is the named subject's row. -/
theorem buildElementTable_excludes_blank_nodes_witness :
    ∃ s, shouldIncludeElementSubject storeC5 (Term.namedNode s) = true ∧
      (∃ q ∈ storeC5, isBlankNode q.subject = false ∧
        isBlankNode q.object = false ∧ q.subject.value = s) ∧
      ∀ kv ∈ [("iri", "http://example.org/A"),
          (NS.rdf ++ "type", NS.owl ++ "Class")], kv = ("iri", s) ∨
        ∃ p vals, kv = (p, joinSemi vals) ∧ ∀ v ∈ vals,
          ∃ q ∈ storeC5, isBlankNode q.subject = false ∧
            isBlankNode q.object = false ∧
            objDisplayValue q.object = some v :=
  buildElementTable_excludes_blank_nodes storeC5
    [("iri", "http://example.org/A"), (NS.rdf ++ "type", NS.owl ++ "Class")]
    (by decide)

/-! ## C3: column order -/

theorem bool_eq_of_iff {a b : Bool} (h : a = true ↔ b = true) : a = b := by
  cases a <;> cases b <;> simp_all

/-- `shouldIncludeElementSubject` only depends on the store's membership,
not on its enumeration order. -/
theorem shouldInclude_perm {store₁ store₂ : Store} (hperm : store₁.Perm store₂)
    (t : Term) :
    shouldIncludeElementSubject store₁ t = shouldIncludeElementSubject store₂ t := by
  cases t with
  | blankNode b => rfl
  | literal v lang => rfl
  | namedNode i =>
    unfold shouldIncludeElementSubject getQuads
    apply bool_eq_of_iff
    simp only [List.any_eq_true, List.mem_map, List.mem_filter]
    constructor
    · rintro ⟨tv, ⟨q, ⟨hq, hf⟩, rfl⟩, hint⟩
      exact ⟨q.object.value, ⟨q, ⟨hperm.mem_iff.mp hq, hf⟩, rfl⟩, hint⟩
    · rintro ⟨tv, ⟨q, ⟨hq, hf⟩, rfl⟩, hint⟩
      exact ⟨q.object.value, ⟨q, ⟨hperm.mem_iff.mpr hq, hf⟩, rfl⟩, hint⟩

/-- Membership in the used-predicate set, stated without reference to any
enumeration order. -/
theorem mem_usedPredicates_iff (store : Store) (p : String) :
    p ∈ usedPredicates store ↔
      ∃ s, shouldIncludeElementSubject store (Term.namedNode s) = true ∧
        ∃ q ∈ store, ∃ v, QuadGives s p v q := by
  unfold usedPredicates
  rw [mem_foldl_inner_insertUnique]
  simp only [List.not_mem_nil, false_or]
  constructor
  · rintro ⟨s, hs, hp⟩
    have hinc := (List.mem_filter.mp hs).2
    rcases (mem_pmKeys_buildSubjectMap store [] s p).mp hp with h | h
    · rw [smLookup_nil] at h
      simp at h
    · exact ⟨s, hinc, h⟩
  · rintro ⟨s, hinc, q, hq, v, hg⟩
    have hkey : s ∈ (buildSubjectMap store []).map Prod.fst :=
      (mem_smKeys_buildSubjectMap store [] s).mpr
        (Or.inr ⟨q, hq, p, v, hg⟩)
    exact ⟨s, List.mem_filter.mpr ⟨hkey, hinc⟩,
      (mem_pmKeys_buildSubjectMap store [] s p).mpr (Or.inr ⟨q, hq, v, hg⟩)⟩

theorem usedPredicates_nodup (store : Store) : (usedPredicates store).Nodup := by
  unfold usedPredicates
  exact nodup_foldl_inner_insertUnique _ _ _ List.nodup_nil

theorem mem_usedPredicates_perm {store₁ store₂ : Store}
    (hperm : store₁.Perm store₂) (p : String) :
    p ∈ usedPredicates store₁ ↔ p ∈ usedPredicates store₂ := by
  rw [mem_usedPredicates_iff, mem_usedPredicates_iff]
  constructor
  · rintro ⟨s, hinc, q, hq, hv⟩
    exact ⟨s, (shouldInclude_perm hperm _) ▸ hinc, q, hperm.mem_iff.mp hq, hv⟩
  · rintro ⟨s, hinc, q, hq, hv⟩
    exact ⟨s, (shouldInclude_perm hperm _).symm ▸ hinc, q,
      hperm.mem_iff.mpr hq, hv⟩

theorem curieLe_total (a b : String) : curieLe a b ∨ curieLe b a := by
  unfold curieLe
  cases h : strLt (iriToCurieIfCommon a) (iriToCurieIfCommon b) with
  | false => exact Or.inr (localeCompare_nonpos_iff.mpr h)
  | true => exact Or.inl (localeCompare_nonpos_iff.mpr (strLt_asymm h))

theorem curieLe_trans (a b c : String) (h : curieLe a b) (h2 : curieLe b c) :
    curieLe a c := by
  unfold curieLe at h h2 ⊢
  rw [localeCompare_nonpos_iff] at h h2 ⊢
  exact strNLt_trans h h2

theorem curieLe_key_antisymm {a b : String} (h : curieLe a b) (h2 : curieLe b a) :
    iriToCurieIfCommon a = iriToCurieIfCommon b := by
  unfold curieLe at h h2
  rw [localeCompare_nonpos_iff] at h h2
  exact strLt_connex h2 h

/-- The whole column order is enumeration-order independent once distinct
used predicates have distinct display forms. -/
theorem orderedPredicates_perm_eq (store₁ store₂ : Store)
    (hperm : store₁.Perm store₂)
    (hinj : ∀ p ∈ usedPredicates store₁, ∀ r ∈ usedPredicates store₁,
      iriToCurieIfCommon p = iriToCurieIfCommon r → p = r) :
    orderedPredicates store₁ = orderedPredicates store₂ := by
  haveI : IsTotal String curieLe := ⟨curieLe_total⟩
  haveI : IsTrans String curieLe := ⟨curieLe_trans⟩
  have hmem : ∀ p, p ∈ usedPredicates store₁ ↔ p ∈ usedPredicates store₂ :=
    fun p => mem_usedPredicates_perm hperm p
  have hcont : ∀ p, (usedPredicates store₁).contains p =
      (usedPredicates store₂).contains p := by
    intro p
    apply bool_eq_of_iff
    rw [List.elem_iff, List.elem_iff]
    exact hmem p
  have hup : (usedPredicates store₁).Perm (usedPredicates store₂) :=
    (List.perm_ext_iff_of_nodup (usedPredicates_nodup store₁)
      (usedPredicates_nodup store₂)).mpr hmem
  have hnp_perm : ((usedPredicates store₁).filter
      fun p => !priorityPreds.contains p).Perm
      ((usedPredicates store₂).filter fun p => !priorityPreds.contains p) :=
    hup.filter _
  have hsorted1 := List.sorted_insertionSort curieLe
    ((usedPredicates store₁).filter fun p => !priorityPreds.contains p)
  have hsorted2 := List.sorted_insertionSort curieLe
    ((usedPredicates store₂).filter fun p => !priorityPreds.contains p)
  have hperm_sorted : (List.insertionSort curieLe ((usedPredicates store₁).filter
      fun p => !priorityPreds.contains p)).Perm
      (List.insertionSort curieLe ((usedPredicates store₂).filter
        fun p => !priorityPreds.contains p)) :=
    (List.perm_insertionSort _ _).trans
      (hnp_perm.trans (List.perm_insertionSort _ _).symm)
  have hnp_nodup : ((usedPredicates store₁).filter
      fun p => !priorityPreds.contains p).Nodup :=
    (usedPredicates_nodup store₁).filter _
  have hmap_nodup : (((usedPredicates store₁).filter
      fun p => !priorityPreds.contains p).map iriToCurieIfCommon).Nodup :=
    List.Nodup.map_on
      (fun x hx y hy hxy =>
        hinj x (List.mem_filter.mp hx).1 y (List.mem_filter.mp hy).1 hxy)
      hnp_nodup
  have hnd : ((List.insertionSort curieLe ((usedPredicates store₁).filter
      fun p => !priorityPreds.contains p)).map iriToCurieIfCommon).Nodup :=
    (((List.perm_insertionSort curieLe _).map iriToCurieIfCommon).nodup_iff).mpr
      hmap_nodup
  have heq : List.insertionSort curieLe ((usedPredicates store₁).filter
      fun p => !priorityPreds.contains p) =
      List.insertionSort curieLe ((usedPredicates store₂).filter
        fun p => !priorityPreds.contains p) :=
    eq_of_perm_of_pairwise_key iriToCurieIfCommon curieLe
      (fun x y hxy hyx => curieLe_key_antisymm hxy hyx) _ _
      hperm_sorted hsorted1 hsorted2 hnd
  unfold orderedPredicates
  rw [heq, List.filter_congr (fun p _ => hcont p)]

/-- The two collision stores: the predicate whose IRI is literally the
string `rdf:x` and the predicate in the rdf namespace with local name `x`
display identically, so the stable sort falls back to first-seen order. -/
def storeC3A : Store :=
  [⟨Term.namedNode "http://example.org/s", Term.namedNode (NS.rdf ++ "type"),
    Term.namedNode (NS.owl ++ "Class")⟩,
   ⟨Term.namedNode "http://example.org/s", Term.namedNode "rdf:x",
    Term.namedNode "http://example.org/o"⟩,
   ⟨Term.namedNode "http://example.org/s", Term.namedNode (NS.rdf ++ "x"),
    Term.namedNode "http://example.org/o"⟩]

def storeC3B : Store :=
  [⟨Term.namedNode "http://example.org/s", Term.namedNode (NS.rdf ++ "type"),
    Term.namedNode (NS.owl ++ "Class")⟩,
   ⟨Term.namedNode "http://example.org/s", Term.namedNode (NS.rdf ++ "x"),
    Term.namedNode "http://example.org/o"⟩,
   ⟨Term.namedNode "http://example.org/s", Term.namedNode "rdf:x",
    Term.namedNode "http://example.org/o"⟩]

set_option maxRecDepth 40000 in
/-- C3 counterexample: the same triples in two enumeration orders give two
different column orders, because the two distinct predicates both display
as `rdf:x` and the stable sort keeps their first-seen order. -/
theorem columnOrder_enumeration_dependent_cex :
    storeC3A.Perm storeC3B ∧
      (buildElementTableModel storeC3A).predicates ≠
        (buildElementTableModel storeC3B).predicates := by
  constructor
  · exact List.Perm.cons _ (List.Perm.swap _ _ _)
  · decide

/-- C3 (amended): the column order is the fixed priority predicates
rdf:type, rdfs:label, skos:altLabel, skos:definition — each kept iff it is
a used predicate, in that fixed order — followed by the remaining used
predicates sorted ascending (non-strictly) by CURIE-or-IRI display form;
and the order is independent of store enumeration order provided distinct
used predicates have distinct display forms (the counterexample shows it
is not independent when two used predicates collide on their display
form). -/
theorem columnOrder_priority_then_sorted (store₁ store₂ : Store)
    (hperm : store₁.Perm store₂)
    (hinj : ∀ p ∈ usedPredicates store₁, ∀ r ∈ usedPredicates store₁,
      iriToCurieIfCommon p = iriToCurieIfCommon r → p = r) :
    (∃ rest, orderedPredicates store₁ =
        priorityPreds.filter (fun p => (usedPredicates store₁).contains p) ++
          rest ∧
        rest.Pairwise curieLe ∧
        (∀ p, p ∈ rest ↔ p ∈ usedPredicates store₁ ∧ p ∉ priorityPreds)) ∧
    (buildElementTableModel store₁).predicates =
      (buildElementTableModel store₂).predicates ∧
    (buildElementTableModel store₁).headers =
      (buildElementTableModel store₂).headers := by
  haveI : IsTotal String curieLe := ⟨curieLe_total⟩
  haveI : IsTrans String curieLe := ⟨curieLe_trans⟩
  have hord := orderedPredicates_perm_eq store₁ store₂ hperm hinj
  refine ⟨⟨List.insertionSort curieLe ((usedPredicates store₁).filter
      fun p => !priorityPreds.contains p), rfl, ?_, ?_⟩, ?_, ?_⟩
  · exact List.sorted_insertionSort curieLe _
  · intro p
    rw [List.mem_insertionSort, List.mem_filter]
    constructor
    · rintro ⟨hu, hnp⟩
      refine ⟨hu, fun hmem => ?_⟩
      rw [Bool.not_eq_eq_eq_not, Bool.not_true] at hnp
      have h2 : priorityPreds.contains p = true := List.elem_iff.mpr hmem
      rw [hnp] at h2
      exact Bool.noConfusion h2
    · rintro ⟨hu, hnp⟩
      refine ⟨hu, ?_⟩
      have : priorityPreds.contains p = false := by
        cases hc : priorityPreds.contains p with
        | false => rfl
        | true => exact absurd (List.elem_iff.mp hc) hnp
      rw [this]
      rfl
  · unfold buildElementTableModel
    rw [hord]
  · unfold buildElementTableModel
    rw [hord]

/-- The store of the repository's own unit test: one class with a type and
a label. -/
def storeJest : Store :=
  [⟨Term.namedNode "http://example.org/ClassA",
    Term.namedNode (NS.rdf ++ "type"), Term.namedNode (NS.owl ++ "Class")⟩,
   ⟨Term.namedNode "http://example.org/ClassA",
    Term.namedNode (NS.rdfs ++ "label"), Term.literal "Class A" "en"⟩]

set_option maxRecDepth 40000 in
/-- C3 witness: on the unit-test store (collision-free display forms) the
priority/sorted decomposition holds and the column order is stable. -/
theorem columnOrder_priority_then_sorted_witness :
    (∃ rest, orderedPredicates storeJest =
        priorityPreds.filter (fun p => (usedPredicates storeJest).contains p) ++
          rest ∧
        rest.Pairwise curieLe ∧
        (∀ p, p ∈ rest ↔ p ∈ usedPredicates storeJest ∧ p ∉ priorityPreds)) ∧
    (buildElementTableModel storeJest).predicates =
      (buildElementTableModel storeJest).predicates ∧
    (buildElementTableModel storeJest).headers =
      (buildElementTableModel storeJest).headers :=
  columnOrder_priority_then_sorted storeJest storeJest (List.Perm.refl storeJest)
    (by decide)
